import Mathlib

/-!
Verification of the tamper-evident ledger in `src/blockchain_logger.py`
(`BlockchainLogger`): the hash-chaining scheme, the append protocol
(`create_block`), and the chain-integrity verification (`verify_chain`).

The development shallowly embeds the Python code:
* `hashlib.sha256(...).hexdigest()` is implemented bit-for-bit over `Nat`
  (FIPS 180-4), with byte strings as `List Nat`;
* `json.dumps(..., sort_keys=True)` is modelled by `JValue` rendering after
  recursive key sorting;
* the logger's state (the sqlite `blocks` table plus the in-memory cached
  tail `self.chain`) is an explicit `LoggerState`, and `create_block` /
  `verify_chain` are pure functions over it.
-/

set_option maxRecDepth 100000

namespace Guardian

/-- 2^32, the word modulus of SHA-256. -/
def wordMod : Nat := 4294967296

/-- Right rotation of a 32-bit word (input assumed `< 2^32`). -/
def rotr (n x : Nat) : Nat := ((x >>> n) ||| (x <<< (32 - n))) % wordMod

/-- SHA-256 `Ch(x,y,z)`; `¬x` in 32 bits is `x ^^^ (2^32 - 1)`. -/
def ch (x y z : Nat) : Nat := (x &&& y) ^^^ ((x ^^^ 4294967295) &&& z)

/-- SHA-256 `Maj(x,y,z)`. -/
def maj (x y z : Nat) : Nat := (x &&& y) ^^^ (x &&& z) ^^^ (y &&& z)

/-- SHA-256 `Σ₀`. -/
def bsig0 (x : Nat) : Nat := rotr 2 x ^^^ rotr 13 x ^^^ rotr 22 x

/-- SHA-256 `Σ₁`. -/
def bsig1 (x : Nat) : Nat := rotr 6 x ^^^ rotr 11 x ^^^ rotr 25 x

/-- SHA-256 `σ₀`. -/
def ssig0 (x : Nat) : Nat := rotr 7 x ^^^ rotr 18 x ^^^ (x >>> 3)

/-- SHA-256 `σ₁`. -/
def ssig1 (x : Nat) : Nat := rotr 17 x ^^^ rotr 19 x ^^^ (x >>> 10)

/-- The 64 SHA-256 round constants `K₀…K₆₃` (FIPS 180-4 §4.2.2),
written in decimal. -/
def sha256K : List Nat :=
[1116352408, 1899447441, 3049323471, 3921009573, 961987163, 1508970993,
 2453635748, 2870763221, 3624381080, 310598401, 607225278, 1426881987,
 1925078388, 2162078206, 2614888103, 3248222580, 3835390401, 4022224774,
 264347078, 604807628, 770255983, 1249150122, 1555081692, 1996064986,
 2554220882, 2821834349, 2952996808, 3210313671, 3336571891, 3584528711,
 113926993, 338241895, 666307205, 773529912, 1294757372, 1396182291,
 1695183700, 1986661051, 2177026350, 2456956037, 2730485921, 2820302411,
 3259730800, 3345764771, 3516065817, 3600352804, 4094571909, 275423344,
 430227734, 506948616, 659060556, 883997877, 958139571, 1322822218,
 1537002063, 1747873779, 1955562222, 2024104815, 2227730452, 2361852424,
 2428436474, 2756734187, 3204031479, 3329325298]

/-- The eight SHA-256 initial hash values `H₀…H₇` (FIPS 180-4 §5.3.3),
written in decimal. -/
def sha256H0 : List Nat :=
[1779033703, 3144134277, 1013904242, 2773480762,
 1359893119, 2600822924, 528734635, 1541459225]

/-- Extend a 16-word message block to the full 64-word schedule:
each step appends `σ₁(w[t-2]) + w[t-7] + σ₀(w[t-15]) + w[t-16] mod 2^32`. -/
def extendSchedule : Nat → List Nat → List Nat
| 0, w => w
| n + 1, w =>
    extendSchedule n (w ++ [(ssig1 (w.getD (w.length - 2) 0) +
      w.getD (w.length - 7) 0 + ssig0 (w.getD (w.length - 15) 0) +
      w.getD (w.length - 16) 0) % wordMod])

/-- One SHA-256 compression round on the working variables `[a,…,h]`,
consuming the precomputed value `kw = K[t] + W[t] mod 2^32`. -/
def sha256Round (st : List Nat) (kw : Nat) : List Nat :=
match st with
| [a, b, c, d, e, f, g, h] =>
    let t1 := (h + bsig1 e + ch e f g + kw) % wordMod
    let t2 := (bsig0 a + maj a b c) % wordMod
    [(t1 + t2) % wordMod, a, b, c, (d + t1) % wordMod, e, f, g]
| st => st

/-- Process one 16-word message block: run the 64 rounds from the chaining
value `h` and add the result back into `h` wordwise. -/
def processBlock (h : List Nat) (block : List Nat) : List Nat :=
let w := extendSchedule 48 block
let kw := List.zipWith (fun k wi => (k + wi) % wordMod) sha256K w
let st := kw.foldl sha256Round h
List.zipWith (fun x y => (x + y) % wordMod) h st

/-- Big-endian bytes of `x`, exactly `k` bytes wide. -/
def toBytesBE : Nat → Nat → List Nat
| 0, _ => []
| k + 1, x => toBytesBE k (x / 256) ++ [x % 256]

/-- SHA-256 message padding: append `0x80`, zero bytes to 56 mod 64, then
the bit length as 8 big-endian bytes (FIPS 180-4 §5.1.1). -/
def padMessage (msg : List Nat) : List Nat :=
msg ++ [128] ++ List.replicate ((119 - msg.length % 64) % 64) 0 ++
  toBytesBE 8 (msg.length * 8)

/-- Group a byte list into big-endian 32-bit words (4 bytes per word). -/
def bytesToWords : List Nat → List Nat
| b0 :: b1 :: b2 :: b3 :: rest =>
    (((b0 * 256 + b1) * 256 + b2) * 256 + b3) :: bytesToWords rest
| _ => []

/-- Split a word list into 16-word message blocks (`fuel` bounds the
recursion; it is always called with `fuel = ws.length`, which suffices). -/
def chunk16Aux : Nat → List Nat → List (List Nat)
| 0, _ => []
| _, [] => []
| fuel + 1, ws => ws.take 16 :: chunk16Aux fuel (ws.drop 16)

/-- Split a word list into 16-word message blocks. -/
def chunk16 (ws : List Nat) : List (List Nat) := chunk16Aux ws.length ws

/-- SHA-256 of a byte string, as its 32-byte digest. -/
def sha256 (msg : List Nat) : List Nat :=
((chunk16 (bytesToWords (padMessage msg))).foldl processBlock
  sha256H0).flatMap (toBytesBE 4)

/-- Lowercase hex digit for `n < 16`, as Python's `hexdigest` prints it. -/
def hexChar (n : Nat) : Char :=
if n < 10 then Char.ofNat (48 + n) else Char.ofNat (87 + n)

/-- Two lowercase hex digits of one byte. -/
def byteToHex (b : Nat) : List Char := [hexChar (b / 16), hexChar (b % 16)]

/-- `hashlib.sha256(msg).hexdigest()`: the digest printed as 64 lowercase
hex characters. -/
def sha256hex (msg : List Nat) : String :=
String.mk ((sha256 msg).flatMap byteToHex)

/-- UTF-8 encoding of one character (`str.encode()` in Python). -/
def utf8Char (c : Char) : List Nat :=
let n := c.toNat
if n < 128 then [n]
else if n < 2048 then [192 ||| (n >>> 6), 128 ||| (n &&& 63)]
else if n < 65536 then
  [224 ||| (n >>> 12), 128 ||| ((n >>> 6) &&& 63), 128 ||| (n &&& 63)]
else
  [240 ||| (n >>> 18), 128 ||| ((n >>> 12) &&& 63),
   128 ||| ((n >>> 6) &&& 63), 128 ||| (n &&& 63)]

/-- UTF-8 bytes of a string (`s.encode()` in Python). -/
def strBytes (s : String) : List Nat := s.data.flatMap utf8Char

example : sha256hex (strBytes "abc") =
    "ba7816bf8f01cfea414140de5dae2223b00361a396177a9cb410ff61f20015ad" := by
  decide

example : sha256hex (strBytes "") =
    "e3b0c44298fc1c149afbf4c8996fb92427ae41e4649b934ca495991b7852b855" := by
  decide

/-!
## JSON values and `json.dumps`

Python values handed to the logger (`data` payloads, the `block_data` dict)
are embedded as `JValue`.  `JItems` and `JFields` are first-order copies of
`List JValue` and `List (String × JValue)` so that all recursion is plain
mutual structural recursion (hence kernel-evaluable).
-/

mutual

inductive JValue : Type where
| null : JValue
| bool (b : Bool) : JValue
| num (n : Int) : JValue
| str (s : String) : JValue
| arr (items : JItems) : JValue
| obj (fields : JFields) : JValue

inductive JItems : Type where
| nil : JItems
| cons (hd : JValue) (tl : JItems) : JItems

inductive JFields : Type where
| nil : JFields
| cons (key : String) (val : JValue) (tl : JFields) : JFields

end

/-- Build a `JFields` from an association list. -/
def JFields.ofList : List (String × JValue) → JFields
| [] => .nil
| (k, v) :: tl => .cons k v (JFields.ofList tl)

/-- The association list of a `JFields`. -/
def JFields.toList : JFields → List (String × JValue)
| .nil => []
| .cons k v tl => (k, v) :: JFields.toList tl

/-- Build a `JItems` from a list. -/
def JItems.ofList : List JValue → JItems
| [] => .nil
| v :: tl => .cons v (JItems.ofList tl)

/-- `\u`-escape of a code unit as Python emits it: backslash, `u`, four
lowercase hex digits. -/
def uescape4 (n : Nat) : List Char :=
'\\' :: 'u' :: ([n / 4096, n / 256, n / 16, n].map fun k => hexChar (k % 16))

/-- Escaping of one character inside a JSON string literal, as
`json.dumps` does with its default `ensure_ascii=True`: the two-character
escapes for quote, backslash and the C0 controls that have them, `\uXXXX`
for the remaining controls and all non-ASCII, surrogate pairs above the
BMP, and everything else verbatim. -/
def escChar (c : Char) : List Char :=
let n := c.toNat
if n = 34 then ['\\', '"']
else if n = 92 then ['\\', '\\']
else if n = 8 then ['\\', 'b']
else if n = 9 then ['\\', 't']
else if n = 10 then ['\\', 'n']
else if n = 12 then ['\\', 'f']
else if n = 13 then ['\\', 'r']
else if n < 32 then uescape4 n
else if n < 127 then [c]
else if n < 65536 then uescape4 n
else uescape4 (55296 + ((n - 65536) >>> 10)) ++
  uescape4 (56320 + ((n - 65536) &&& 1023))

/-- A JSON string literal: quote, escaped characters, quote. -/
def jquote (s : String) : List Char := '"' :: s.data.flatMap escChar ++ ['"']

/-- Join item renderings with `json.dumps`' default item separator `", "`. -/
def commaJoin : List (List Char) → List Char
| [] => []
| [x] => x
| x :: xs => x ++ ',' :: ' ' :: commaJoin xs

mutual

/-- Rendering of a `JValue` exactly as `json.dumps` prints it with default
separators: `", "` between items, `": "` after keys, no whitespace at the
brackets.  Objects are rendered in the field order they carry; key sorting
is a separate pass (`sortJson`), matching `sort_keys=True`. -/
def renderJ : JValue → List Char
| .null => "null".data
| .bool true => "true".data
| .bool false => "false".data
| .num n => (toString n).data
| .str s => jquote s
| .arr items => '[' :: renderItems items ++ [']']
| .obj fields => Char.ofNat 123 :: renderFields fields ++ [Char.ofNat 125]

/-- Renderings of array items, `", "`-separated. -/
def renderItems : JItems → List Char
| .nil => []
| .cons v .nil => renderJ v
| .cons v tl => renderJ v ++ ',' :: ' ' :: renderItems tl

/-- Renderings of object members, `", "`-separated, `": "` after each key. -/
def renderFields : JFields → List Char
| .nil => []
| .cons k v .nil => jquote k ++ ':' :: ' ' :: renderJ v
| .cons k v tl => (jquote k ++ ':' :: ' ' :: renderJ v) ++ ',' :: ' ' ::
    renderFields tl

end

/-- Byte-order (code point) comparison of two keys, Python's `str` `<=`. -/
def keyLe : List Char → List Char → Bool
| [], _ => true
| _ :: _, [] => false
| a :: as, b :: bs =>
    if a.toNat < b.toNat then true
    else if b.toNat < a.toNat then false
    else keyLe as bs

/-- Ordered insertion of one field by key, the step of insertion sort. -/
def insertField (k : String) (v : JValue) : JFields → JFields
| .nil => .cons k v .nil
| .cons k2 v2 tl =>
    if keyLe k.data k2.data then .cons k v (.cons k2 v2 tl)
    else .cons k2 v2 (insertField k v tl)

/-- Insertion sort of object fields by key: the order `sorted(d.items())`
produces for a dict (keys are unique, so only keys decide the order). -/
def isortFields : JFields → JFields
| .nil => .nil
| .cons k v tl => insertField k v (isortFields tl)

mutual

/-- Recursive key sorting: every object's fields are put in ascending key
order, at all nesting depths.  Rendering after this pass is exactly what
`json.dumps(value, sort_keys=True)` prints. -/
def sortJson : JValue → JValue
| .null => .null
| .bool b => .bool b
| .num n => .num n
| .str s => .str s
| .arr items => .arr (sortItems items)
| .obj fields => .obj (isortFields (sortFieldVals fields))

/-- Key sorting inside each array item. -/
def sortItems : JItems → JItems
| .nil => .nil
| .cons v tl => .cons (sortJson v) (sortItems tl)

/-- Key sorting inside each field value (the fields' own order is then
sorted by `isortFields`; keys are untouched, so sorting before or after
this pass is the same). -/
def sortFieldVals : JFields → JFields
| .nil => .nil
| .cons k v tl => .cons k (sortJson v) (sortFieldVals tl)

end

/-- `json.dumps(v, sort_keys=True)`. -/
def jdumpsSorted (v : JValue) : String := String.mk (renderJ (sortJson v))

/-- `json.dumps(v)` (no key sorting; used for the stored `data` column). -/
def jdumps (v : JValue) : String := String.mk (renderJ v)

example : jdumpsSorted (.obj (JFields.ofList
    [("b", .arr (.ofList [.null, .bool true])), ("a", .num (-1))])) =
    "\x7b\"a\": -1, \"b\": [null, true]\x7d" := by decide

/-- Cross-check of the whole serialize-and-hash pipeline against CPython:
`hashlib.sha256(json.dumps(block_data, sort_keys=True).encode()).hexdigest()`
on this dict (insertion order as in `create_block`, nested unsorted payload,
non-ASCII and control characters) prints exactly this digest. -/
example : sha256hex (strBytes (jdumpsSorted (.obj (JFields.ofList
    [("previous_hash", .str (String.mk (List.replicate 64 '0'))),
     ("timestamp", .str "2026-10-12T00:00:00"),
     ("data_type", .str "WATER_ANOMALY"),
     ("sensor_id", .str "node_001"),
     ("fund_id", .null),
     ("anomaly_type", .str "LOW_PH"),
     ("severity", .str "HIGH"),
     ("data", .obj (JFields.ofList
       [("sensor_id", .str "node_001"),
        ("anomalies", .arr (.ofList [.arr (.ofList
          [.str "LOW_PH", .num 58, .str "pH élow\n"])])),
        ("severity", .str "HIGH"),
        ("n", .num (-12))]))])))) =
    "50b7115fcbf1e489e10f6a07aa49452408438ba33b206493f6934a7ceb2ae949" := by
  decide

/-!
## The logger

`BlockchainLogger`'s observable state is the sqlite `blocks` table (kept
here in ascending `id` order, as `AUTOINCREMENT` assigns ids) together
with the in-memory cached tail `self.chain`.  `create_block` is the only
writer; `verify_chain` is a pure function of the table contents.
-/

/-- One row of the sqlite `blocks` table as `init_db` declares it:
`id INTEGER PRIMARY KEY AUTOINCREMENT`, `current_hash TEXT UNIQUE`, the
rest plain text columns (nullable ones as `Option`).  `data` holds
`json.dumps(data)` as inserted by `create_block`. -/
structure Row where
  id : Nat
  previous_hash : String
  current_hash : String
  timestamp : String
  data_type : String
  sensor_id : Option String
  fund_id : Option String
  anomaly_type : Option String
  severity : String
  data : String
deriving DecidableEq, Inhabited

/-- The logger's state: the `blocks` table (ascending `id`) and the cached
tail `self.chain`.  After `load_chain` the cache is the latest row or
`None`; after a successful append it is the tuple
`(cursor.lastrowid, previous_hash, current_hash)`.  Both are only ever
read at index 2 (the current hash), so the model keeps the three
components `(id, previous_hash, current_hash)`. -/
structure LoggerState where
  store : List Row
  chain : Option (Nat × String × String)
deriving DecidableEq

/-- An event handed to `create_block`: its parameters plus the
`datetime.utcnow().isoformat()` timestamp, which the environment supplies. -/
structure BlockInput where
  timestamp : String
  data_type : String
  sensor_id : Option String
  fund_id : Option String
  anomaly_type : Option String
  severity : String
  data : JValue

/-- The genesis sentinel `"0" * 64`: sixty-four zero hex characters, the
all-zero 32-byte digest. -/
def genesisHash : String := String.mk (List.replicate 64 '0')

/-- A nullable string as the JSON value `json.dumps` sees. -/
def optStr : Option String → JValue
| none => .null
| some s => .str s

/-- The `block_data` dict `create_block` builds, in its insertion order
(`sort_keys=True` later sorts it for hashing). -/
def blockDataJson (previous_hash : String) (x : BlockInput) : JValue :=
.obj (JFields.ofList
  [("previous_hash", .str previous_hash),
   ("timestamp", .str x.timestamp),
   ("data_type", .str x.data_type),
   ("sensor_id", optStr x.sensor_id),
   ("fund_id", optStr x.fund_id),
   ("anomaly_type", optStr x.anomaly_type),
   ("severity", .str x.severity),
   ("data", x.data)])

/-- `current_hash`: SHA-256 hex digest of the canonically encoded
`block_data` (lines 58–59 of the source). -/
def computeHash (previous_hash : String) (x : BlockInput) : String :=
sha256hex (strBytes (jdumpsSorted (blockDataJson previous_hash x)))

/-- The dict `create_block` returns on success. -/
structure CreateResult where
  block_id : Nat
  previous_hash : String
  current_hash : String
  timestamp : String
  integrity : String
deriving DecidableEq

/-- The only failure the model's store raises: the sqlite
`IntegrityError` from the `UNIQUE` constraint on `current_hash`.  It
propagates out of `create_block` uncaught. -/
inductive AppendError : Type where
| duplicateDigest : AppendError
deriving DecidableEq

/-- Line 45: `self.chain[2] if self.chain else "0" * 64`. -/
def cachedPrev (s : LoggerState) : String :=
match s.chain with
| some c => c.2.2
| none => genesisHash

/-- Lines 61–79 of `create_block`, after `previous_hash` is in hand: the
`INSERT` (which raises on a duplicate `current_hash` and otherwise
assigns the next `AUTOINCREMENT` id), the cache update, and the returned
dict.  On the raise, nothing is stored and the state is unchanged. -/
def create_block_write (s : LoggerState) (previous_hash : String)
    (x : BlockInput) : Except AppendError CreateResult × LoggerState :=
let current_hash := computeHash previous_hash x
if s.store.any (fun r => r.current_hash == current_hash) then
  (.error .duplicateDigest, s)
else
  let newId := s.store.length + 1
  let row : Row :=
    { id := newId, previous_hash := previous_hash,
      current_hash := current_hash, timestamp := x.timestamp,
      data_type := x.data_type, sensor_id := x.sensor_id,
      fund_id := x.fund_id, anomaly_type := x.anomaly_type,
      severity := x.severity, data := jdumps x.data }
  (.ok { block_id := newId, previous_hash := previous_hash,
         current_hash := current_hash, timestamp := x.timestamp,
         integrity := "VERIFIED" },
   { store := s.store ++ [row],
     chain := some (newId, previous_hash, current_hash) })

/-- `create_block` (lines 42–79): read the cached tail, then write. -/
def create_block (s : LoggerState) (x : BlockInput) :
    Except AppendError CreateResult × LoggerState :=
create_block_write s (cachedPrev s) x

/-- `load_chain`: `SELECT * FROM blocks ORDER BY id DESC LIMIT 1`, i.e.
the highest-id row, or `None` on an empty table. -/
def load_chain (store : List Row) : Option (Nat × String × String) :=
store.getLast?.map fun r => (r.id, r.previous_hash, r.current_hash)

/-- A fresh logger over an empty database: empty table, cache `None`. -/
def initLogger : LoggerState := { store := [], chain := load_chain [] }

/-- A sequence of `create_block` calls by the single writer, collecting
each call's outcome and threading the state. -/
def runAppends : LoggerState → List BlockInput →
    List (Except AppendError CreateResult) × LoggerState
| s, [] => ([], s)
| s, x :: xs =>
    let rs2 := create_block s x
    let rest := runAppends rs2.2 xs
    (rs2.1 :: rest.1, rest.2)

/-- The state after appending `inputs`, in order, to a fresh empty ledger. -/
def run (inputs : List BlockInput) : LoggerState :=
(runAppends initLogger inputs).2

/-- The three outcomes `verify_chain` can return (its result dicts,
status plus the fields each carries). -/
inductive VerifyResult : Type where
| emptyChain : VerifyResult
| invalidChain (block_id : Nat) (expected_previous actual_previous : String) :
    VerifyResult
| validChain (block_count : Nat) : VerifyResult
deriving DecidableEq

/-- The `for i in range(1, len(blocks))` loop of `verify_chain`: walk
adjacent pairs, return the first mismatch's
`(curr.id, prev.current_hash, curr.previous_hash)`. -/
def verifyLoop : Row → List Row → Option (Nat × String × String)
| _, [] => none
| prev, curr :: rest =>
    if curr.previous_hash = prev.current_hash then verifyLoop curr rest
    else some (curr.id, prev.current_hash, curr.previous_hash)

/-- `verify_chain` (lines 99–122): empty table is `EMPTY_CHAIN`; first
adjacent mismatch is `INVALID_CHAIN` with that block's id, the expected
and the actual previous hash; otherwise `VALID_CHAIN` with the count. -/
def verify_chain (blocks : List Row) : VerifyResult :=
match blocks with
| [] => .emptyChain
| b :: rest =>
    match verifyLoop b rest with
    | some (bid, e, a) => .invalidChain bid e a
    | none => .validChain blocks.length

/-!
## The chain invariant

`Chained p n l`: the rows `l` are consecutively numbered from `n` and
hash-chained starting from digest `p`.  The writer maintains
`Chained genesisHash 1 store` together with agreement between the cached
tail and the last stored digest.
-/

/-- Rows `l` are numbered `n, n+1, …` and chained from digest `p`. -/
def Chained : String → Nat → List Row → Prop
| _, _, [] => True
| p, n, r :: rest =>
    r.previous_hash = p ∧ r.id = n ∧ Chained r.current_hash (n + 1) rest

/-- The digest of the last row of `l`, or `p` when `l` is empty. -/
def lastHashD (p : String) : List Row → String
| [] => p
| r :: rest => lastHashD r.current_hash rest

/-- The writer's invariant: the table is a well-formed chain from the
genesis sentinel and the cached tail reads back the last stored digest. -/
def Inv (s : LoggerState) : Prop :=
Chained genesisHash 1 s.store ∧ cachedPrev s = lastHashD genesisHash s.store

theorem lastHashD_cons (p : String) (a : Row) (l : List Row) :
    lastHashD p (a :: l) = lastHashD a.current_hash l := rfl

theorem lastHashD_concat (p : String) (l : List Row) (r : Row) :
    lastHashD p (l ++ [r]) = r.current_hash := by
  induction l generalizing p with
  | nil => rfl
  | cons a t ih => simpa [lastHashD] using ih a.current_hash

theorem chained_append {p : String} {n : Nat} {l : List Row} {r : Row}
    (hc : Chained p n l) (hprev : r.previous_hash = lastHashD p l)
    (hid : r.id = n + l.length) : Chained p n (l ++ [r]) := by
  induction l generalizing p n with
  | nil =>
      refine ⟨?_, ?_, trivial⟩
      · simpa [lastHashD] using hprev
      · simpa using hid
  | cons a t ih =>
      obtain ⟨h1, h2, h3⟩ := hc
      refine ⟨h1, h2, ?_⟩
      have := lastHashD_cons p a t
      exact ih h3 (by rw [hprev, this]) (by simp [hid]; omega)

theorem inv_init : Inv initLogger := by
  constructor
  · trivial
  · rfl

theorem inv_create_block (s : LoggerState) (x : BlockInput) (hs : Inv s) :
    Inv (create_block s x).2 := by
  obtain ⟨hc, hcache⟩ := hs
  unfold create_block create_block_write
  by_cases hdup : s.store.any
      (fun r => r.current_hash == computeHash (cachedPrev s) x) = true
  · simpa [hdup] using ⟨hc, hcache⟩
  · rw [Bool.not_eq_true] at hdup
    simp only [hdup]
    constructor
    · exact chained_append hc (by simpa using hcache) (by simp; omega)
    · simp [cachedPrev, lastHashD_concat]

theorem inv_runAppends (inputs : List BlockInput) :
    ∀ s : LoggerState, Inv s → Inv (runAppends s inputs).2 := by
  induction inputs with
  | nil => intro s hs; exact hs
  | cons x xs ih =>
      intro s hs
      exact ih _ (inv_create_block s x hs)

theorem inv_run (inputs : List BlockInput) : Inv (run inputs) :=
inv_runAppends inputs initLogger inv_init

theorem chained_getD_id {p : String} {n : Nat} {l : List Row}
    (hc : Chained p n l) :
    ∀ i, i < l.length → (l.getD i default).id = n + i := by
  induction l generalizing p n with
  | nil => intro i hi; simp at hi
  | cons a t ih =>
      obtain ⟨_, h2, h3⟩ := hc
      intro i hi
      cases i with
      | zero => simpa using h2
      | succ j =>
          have hj : j < t.length := by simpa using Nat.lt_of_succ_lt_succ hi
          have hid := ih h3 j hj
          simp only [List.getD_cons_succ]
          rw [hid]
          omega

theorem chained_getD_head {p : String} {n : Nat} {l : List Row}
    (hc : Chained p n l) (h0 : 0 < l.length) :
    (l.getD 0 default).previous_hash = p := by
  cases l with
  | nil => simp at h0
  | cons a t => simpa using hc.1

theorem chained_getD_link {p : String} {n : Nat} {l : List Row}
    (hc : Chained p n l) :
    ∀ i, i + 1 < l.length →
      (l.getD (i + 1) default).previous_hash =
        (l.getD i default).current_hash := by
  induction l generalizing p n with
  | nil => intro i hi; simp at hi
  | cons a t ih =>
      obtain ⟨_, _, h3⟩ := hc
      intro i hi
      cases i with
      | zero =>
          cases t with
          | nil => simp at hi
          | cons b t2 => simpa using h3.1
      | succ j =>
          simpa using ih h3 j (by simpa using Nat.lt_of_succ_lt_succ hi)

theorem chained_map_id {p : String} {n : Nat} {l : List Row}
    (hc : Chained p n l) : l.map (·.id) = List.range' n l.length := by
  induction l generalizing p n with
  | nil => rfl
  | cons a t ih =>
      obtain ⟨_, h2, h3⟩ := hc
      simpa [List.range'_succ, h2] using ih h3

/-- Whether an append call returned normally. -/
def isOk : Except AppendError CreateResult → Bool
| .ok _ => true
| .error _ => false

theorem create_block_store_length (s : LoggerState) (x : BlockInput) :
    (create_block s x).2.store.length =
      s.store.length + (if isOk (create_block s x).1 then 1 else 0) := by
  unfold create_block create_block_write
  by_cases hdup : s.store.any
      (fun r => r.current_hash == computeHash (cachedPrev s) x) = true
  · simp [hdup, isOk]
  · rw [Bool.not_eq_true] at hdup
    simp [hdup, isOk]

theorem runAppends_store_length (inputs : List BlockInput) :
    ∀ s : LoggerState, (runAppends s inputs).2.store.length =
      s.store.length + (runAppends s inputs).1.countP (fun r => isOk r) := by
  induction inputs with
  | nil => intro s; simp [runAppends]
  | cons x xs ih =>
      intro s
      have h1 := create_block_store_length s x
      have h2 := ih (create_block s x).2
      simp only [runAppends, List.countP_cons]
      omega

/-- C1 — in every single-writer run, each stored block after the first
has `previous_hash` equal to the `current_hash` of the block stored
immediately before it. -/
theorem chain_links_consecutive (inputs : List BlockInput) (i : Nat)
    (h : i + 1 < (run inputs).store.length) :
    ((run inputs).store.getD (i + 1) default).previous_hash =
      ((run inputs).store.getD i default).current_hash :=
chained_getD_link (inv_run inputs).1 i h

/-- Sample water event, as in the source's `test_blockchain`. -/
def w1 : BlockInput :=
{ timestamp := "t1", data_type := "WATER_ANOMALY",
  sensor_id := some "node_001", fund_id := none,
  anomaly_type := some "LOW_PH", severity := "HIGH", data := .null }

/-- Sample fund event, as in the source's `test_blockchain`. -/
def w2 : BlockInput :=
{ timestamp := "t2", data_type := "FUND_ANOMALY",
  sensor_id := none, fund_id := some "FUND_7890",
  anomaly_type := some "HIGH_DISCREPANCY", severity := "CRITICAL",
  data := .null }

theorem chain_links_consecutive_witness :
    0 + 1 < (run [w1, w2]).store.length ∧
    ((run [w1, w2]).store.getD (0 + 1) default).previous_hash =
      ((run [w1, w2]).store.getD 0 default).current_hash :=
⟨by decide, chain_links_consecutive [w1, w2] 0 (by decide)⟩

/-- C3 — the block appended to the empty ledger carries the all-zero
genesis sentinel as `previous_hash`; every stored block's `id` is its
position plus one; and each later block's `previous_hash` is the digest
of the block whose `id` is one less. -/
theorem genesis_then_predecessor_digest (inputs : List BlockInput) :
    (0 < (run inputs).store.length →
      ((run inputs).store.getD 0 default).previous_hash = genesisHash) ∧
    (∀ i, i < (run inputs).store.length →
      ((run inputs).store.getD i default).id = i + 1) ∧
    (∀ i, i + 1 < (run inputs).store.length →
      ((run inputs).store.getD (i + 1) default).previous_hash =
        ((run inputs).store.getD i default).current_hash) := by
  have hc := (inv_run inputs).1
  refine ⟨fun h0 => chained_getD_head hc h0, fun i hi => ?_,
    chained_getD_link hc⟩
  have := chained_getD_id hc i hi
  omega

theorem genesis_then_predecessor_digest_witness :
    0 < (run [w1]).store.length ∧
    ((run [w1]).store.getD 0 default).previous_hash = genesisHash ∧
    ((run [w1]).store.getD 0 default).id = 1 :=
⟨by decide, (genesis_then_predecessor_digest [w1]).1 (by decide),
 (genesis_then_predecessor_digest [w1]).2.1 0 (by decide)⟩

/-- C9 — after any sequence of appends into an initially empty ledger,
the ascending scan shows ids exactly `1..N` (gap-free, duplicate-free)
where `N` is the number of appends that succeeded. -/
theorem ids_gapfree (inputs : List BlockInput) :
    (run inputs).store.map (·.id) =
      List.range' 1 (run inputs).store.length ∧
    (run inputs).store.length =
      (runAppends initLogger inputs).1.countP (fun r => isOk r) := by
  refine ⟨chained_map_id (inv_run inputs).1, ?_⟩
  simpa [run, initLogger] using runAppends_store_length inputs initLogger

/-- C5 — whenever the digest of the block being appended already exists
in the store, `create_block` raises the duplicate-digest error (sqlite's
`IntegrityError` on the `UNIQUE current_hash` column, uncaught in the
source, hence surfaced to the caller) and the state — table and cache —
is exactly as before: the duplicate block is not recorded. -/
theorem duplicate_digest_rejected (s : LoggerState) (x : BlockInput)
    (h : s.store.any
      (fun r => r.current_hash == computeHash (cachedPrev s) x) = true) :
    create_block s x = (.error .duplicateDigest, s) := by
  unfold create_block create_block_write
  simp [h]

/-- A reachable-shaped state holding one block whose digest equals what a
fresh append of `w1` would compute: the duplicate-check fires on it. -/
def dupState : LoggerState :=
{ store := [{ id := 1, previous_hash := genesisHash,
              current_hash := computeHash genesisHash w1,
              timestamp := "t0", data_type := "WATER_ANOMALY",
              sensor_id := some "node_001", fund_id := none,
              anomaly_type := some "LOW_PH", severity := "HIGH",
              data := jdumps JValue.null }],
  chain := none }

theorem duplicate_digest_rejected_witness :
    dupState.store.any (fun r =>
      r.current_hash == computeHash (cachedPrev dupState) w1) = true ∧
    create_block dupState w1 = (.error .duplicateDigest, dupState) :=
⟨by decide, duplicate_digest_rejected dupState w1 (by decide)⟩

/-- C7 — the cached tail is updated exactly on success: a successful
`create_block` leaves the cache holding the new block's id, previous and
current digest, and a failing one returns the error with the whole state
(cache included) untouched. -/
theorem cache_updated_iff_success (s : LoggerState) (x : BlockInput) :
    (∀ r s2, create_block s x = (.ok r, s2) →
      s2.chain = some (r.block_id, r.previous_hash, r.current_hash) ∧
      s2.store = s.store ++
        [{ id := r.block_id, previous_hash := r.previous_hash,
           current_hash := r.current_hash, timestamp := x.timestamp,
           data_type := x.data_type, sensor_id := x.sensor_id,
           fund_id := x.fund_id, anomaly_type := x.anomaly_type,
           severity := x.severity, data := jdumps x.data }]) ∧
    (∀ e s2, create_block s x = (.error e, s2) → s2 = s) := by
  unfold create_block create_block_write
  by_cases hdup : s.store.any
      (fun r => r.current_hash == computeHash (cachedPrev s) x) = true
  · constructor
    · intro r s2 hr
      simp [hdup] at hr
    · intro e s2 hr
      simp [hdup] at hr
      exact hr.symm
  · rw [Bool.not_eq_true] at hdup
    constructor
    · intro r s2 hr
      simp [hdup] at hr
      obtain ⟨hr1, hr2⟩ := hr
      subst hr2
      simp [← hr1]
    · intro e s2 hr
      simp [hdup] at hr

theorem cache_updated_iff_success_witness :
    ((create_block initLogger w1 =
        ((create_block initLogger w1).1, (create_block initLogger w1).2)) ∧
      (create_block dupState w1 = (.error .duplicateDigest, dupState))) ∧
    ((create_block initLogger w1).2.chain =
        some (1, genesisHash, computeHash genesisHash w1) ∧
      dupState = dupState) := by
  have hok : create_block initLogger w1 =
      (.ok { block_id := 1, previous_hash := genesisHash,
             current_hash := computeHash genesisHash w1,
             timestamp := w1.timestamp, integrity := "VERIFIED" },
       { store := [{ id := 1, previous_hash := genesisHash,
                     current_hash := computeHash genesisHash w1,
                     timestamp := w1.timestamp, data_type := w1.data_type,
                     sensor_id := w1.sensor_id, fund_id := w1.fund_id,
                     anomaly_type := w1.anomaly_type,
                     severity := w1.severity, data := jdumps w1.data }],
         chain := some (1, genesisHash, computeHash genesisHash w1) }) := rfl
  have hdup : create_block dupState w1 = (.error .duplicateDigest, dupState) :=
    duplicate_digest_rejected dupState w1 (by decide)
  refine ⟨⟨rfl, hdup⟩, ?_, rfl⟩
  have := ((cache_updated_iff_success initLogger w1).1 _ _ hok).1
  exact this

/-- C10 — every successful `create_block` returns a dict whose
`integrity` field is the constant string `"VERIFIED"`, whatever the state
of the chain: no verification happens on the append path. -/
theorem integrity_field_constant (s : LoggerState) (x : BlockInput)
    (r : CreateResult) (s2 : LoggerState)
    (h : create_block s x = (.ok r, s2)) : r.integrity = "VERIFIED" := by
  unfold create_block create_block_write at h
  by_cases hdup : s.store.any
      (fun r => r.current_hash == computeHash (cachedPrev s) x) = true
  · simp [hdup] at h
  · rw [Bool.not_eq_true] at hdup
    simp [hdup] at h
    rw [← h.1]

theorem integrity_field_constant_witness :
    ((create_block initLogger w1).1.map (fun r => r.integrity) =
      Except.ok "VERIFIED") := by
  have h : create_block initLogger w1 =
      (.ok { block_id := 1, previous_hash := genesisHash,
             current_hash := computeHash genesisHash w1,
             timestamp := w1.timestamp, integrity := "VERIFIED" },
       (create_block initLogger w1).2) := rfl
  have hint := integrity_field_constant initLogger w1 _ _ h
  exact congrArg Except.ok hint

/-!
## What `verify_chain` actually checks

The loop compares each block from the second onward with its stored
predecessor.  The first block's `previous_hash` is never compared with
anything — in particular not with the genesis sentinel.
-/

theorem verifyLoop_none_iff (l : List Row) : ∀ prev : Row,
    verifyLoop prev l = none ↔
      ∀ i, i < l.length → (l.getD i default).previous_hash =
        ((prev :: l).getD i default).current_hash := by
  induction l with
  | nil =>
      intro prev
      constructor
      · intro _ i hi
        exact absurd hi (Nat.not_lt_zero i)
      · intro _
        rfl
  | cons c rest ih =>
      intro prev
      by_cases heq : c.previous_hash = prev.current_hash
      · simp only [verifyLoop, if_pos heq]
        rw [ih c]
        constructor
        · intro hall i hi
          cases i with
          | zero => simpa using heq
          | succ j =>
              have hj : j < rest.length := by
                simpa using Nat.lt_of_succ_lt_succ hi
              simpa using hall j hj
        · intro hall j hj
          have := hall (j + 1) (by simpa using Nat.succ_lt_succ hj)
          simpa using this
      · simp only [verifyLoop, if_neg heq]
        constructor
        · intro hsome
          exact absurd hsome (by simp)
        · intro hall
          exact absurd (by simpa using hall 0 (by simp)) heq

theorem verifyLoop_some (l : List Row) : ∀ (prev : Row) (bid : Nat)
    (e a : String), verifyLoop prev l = some (bid, e, a) →
    ∃ k, k < l.length ∧ bid = (l.getD k default).id ∧
      e = ((prev :: l).getD k default).current_hash ∧
      a = (l.getD k default).previous_hash ∧ a ≠ e ∧
      ∀ j, j < k → (l.getD j default).previous_hash =
        ((prev :: l).getD j default).current_hash := by
  induction l with
  | nil =>
      intro prev bid e a h
      exact absurd h (by simp [verifyLoop])
  | cons c rest ih =>
      intro prev bid e a h
      by_cases heq : c.previous_hash = prev.current_hash
      · rw [verifyLoop, if_pos heq] at h
        obtain ⟨k, hk, h1, h2, h3, h4, h5⟩ := ih c bid e a h
        refine ⟨k + 1, by simpa using Nat.succ_lt_succ hk, by simpa using h1,
          by simpa using h2, by simpa using h3, h4, ?_⟩
        intro j hj
        cases j with
        | zero => simpa using heq
        | succ i =>
            have := h5 i (Nat.lt_of_succ_lt_succ hj)
            simpa using this
      · rw [verifyLoop, if_neg heq] at h
        obtain ⟨hb, he, ha⟩ : bid = c.id ∧ e = prev.current_hash ∧
            a = c.previous_hash := by
          have := Option.some.inj h
          exact ⟨congrArg (fun t => t.1) this.symm,
            congrArg (fun t => t.2.1) this.symm,
            congrArg (fun t => t.2.2) this.symm⟩
        refine ⟨0, by simp, by simpa using hb, by simpa using he,
          by simpa using ha, ?_, ?_⟩
        · rw [ha, he]
          exact heq
        · intro j hj
          exact absurd hj (Nat.not_lt_zero j)

/-- C2 as the code implements it — `verify_chain` reports `EMPTY_CHAIN`
exactly on the empty table; `VALID_CHAIN` carries the total block count
and implies every block from the second onward links to its predecessor;
whenever some adjacent pair mismatches it reports `INVALID_CHAIN`; and an
`INVALID_CHAIN` report names the first mismatching block's id, the
expected (predecessor's current) and actual (stored previous) digests,
every earlier adjacent pair being consistent.  The first block's
`previous_hash` is never compared with the genesis sentinel (see
`verify_accepts_non_genesis_head`). -/
theorem verify_chain_characterization (l : List Row) :
    (verify_chain l = .emptyChain ↔ l = []) ∧
    (∀ n, verify_chain l = .validChain n → n = l.length ∧
      ∀ i, i + 1 < l.length →
        (l.getD (i + 1) default).previous_hash =
          (l.getD i default).current_hash) ∧
    ((∃ i, i + 1 < l.length ∧
        (l.getD (i + 1) default).previous_hash ≠
          (l.getD i default).current_hash) →
      ∃ bid e a, verify_chain l = .invalidChain bid e a) ∧
    (∀ bid e a, verify_chain l = .invalidChain bid e a →
      ∃ k, k + 1 < l.length ∧
        bid = (l.getD (k + 1) default).id ∧
        e = (l.getD k default).current_hash ∧
        a = (l.getD (k + 1) default).previous_hash ∧ a ≠ e ∧
        ∀ j, j < k →
          (l.getD (j + 1) default).previous_hash =
            (l.getD j default).current_hash) := by
  cases l with
  | nil =>
      refine ⟨by simp [verify_chain], ?_, ?_, ?_⟩
      · intro n hn
        exact absurd hn (by simp [verify_chain])
      · intro ⟨i, hi, _⟩
        exact absurd hi (by simp)
      · intro bid e a h
        exact absurd h (by simp [verify_chain])
  | cons b rest =>
      refine ⟨?_, ?_, ?_, ?_⟩
      · constructor
        · intro h
          cases hvl : verifyLoop b rest with
          | none => simp [verify_chain, hvl] at h
          | some v =>
              obtain ⟨bid, e, a⟩ := v
              simp [verify_chain, hvl] at h
        · intro h
          exact absurd h (by simp)
      · intro n hn
        cases hvl : verifyLoop b rest with
        | some v =>
            obtain ⟨bid, e, a⟩ := v
            simp [verify_chain, hvl] at hn
        | none =>
            simp only [verify_chain, hvl] at hn
            simp only [VerifyResult.validChain.injEq] at hn
            refine ⟨hn.symm, ?_⟩
            have hall := (verifyLoop_none_iff rest b).mp hvl
            intro i hi
            have := hall i (by simpa using Nat.lt_of_succ_lt_succ hi)
            simpa using this
      · intro ⟨i, hi, hne⟩
        cases hvl : verifyLoop b rest with
        | some v =>
            obtain ⟨bid, e, a⟩ := v
            exact ⟨bid, e, a, by simp [verify_chain, hvl]⟩
        | none =>
            have hall := (verifyLoop_none_iff rest b).mp hvl
            have := hall i (by simpa using Nat.lt_of_succ_lt_succ hi)
            exact absurd (by simpa using this) hne
      · intro bid e a h
        cases hvl : verifyLoop b rest with
        | none => simp [verify_chain, hvl] at h
        | some v =>
            obtain ⟨bid2, e2, a2⟩ := v
            simp only [verify_chain, hvl] at h
            simp only [VerifyResult.invalidChain.injEq] at h
            obtain ⟨h1, h2, h3⟩ := h
            subst h1; subst h2; subst h3
            obtain ⟨k, hk, g1, g2, g3, g4, g5⟩ :=
              verifyLoop_some rest b bid2 e2 a2 hvl
            refine ⟨k, by simpa using Nat.succ_lt_succ hk,
              by simpa using g1, by simpa using g2, by simpa using g3, g4, ?_⟩
            intro j hj
            have := g5 j hj
            simpa using this

/-- C2 counterexample — a stored first block whose `previous_hash` is not
the genesis sentinel: the claim says this is reported as a break, but
`verify_chain` reports a fully valid one-block chain. -/
def rogueRow : Row :=
{ id := 1, previous_hash := "ff", current_hash := "aa", timestamp := "t",
  data_type := "WATER_ANOMALY", sensor_id := none, fund_id := none,
  anomaly_type := none, severity := "LOW", data := "null" }

theorem verify_accepts_non_genesis_head :
    rogueRow.previous_hash ≠ genesisHash ∧
    verify_chain [rogueRow] = .validChain 1 := by decide

/-- A two-row store whose second row does not link to the first. -/
def brokenPair : List Row :=
[{ id := 1, previous_hash := "00", current_hash := "aa", timestamp := "t1",
   data_type := "WATER_ANOMALY", sensor_id := none, fund_id := none,
   anomaly_type := none, severity := "LOW", data := "null" },
 { id := 2, previous_hash := "bb", current_hash := "cc", timestamp := "t2",
   data_type := "FUND_ANOMALY", sensor_id := none, fund_id := none,
   anomaly_type := none, severity := "LOW", data := "null" }]

theorem verify_chain_characterization_witness :
    (2 = [rogueRow].length ∧ ∀ i, i + 1 < [rogueRow].length →
      ([rogueRow].getD (i + 1) default).previous_hash =
        ([rogueRow].getD i default).current_hash) = False ∧
    ((∃ k, k + 1 < brokenPair.length ∧
        2 = (brokenPair.getD (k + 1) default).id ∧
        "aa" = (brokenPair.getD k default).current_hash ∧
        "bb" = (brokenPair.getD (k + 1) default).previous_hash ∧
        ("bb" : String) ≠ "aa" ∧
        ∀ j, j < k →
          (brokenPair.getD (j + 1) default).previous_hash =
            (brokenPair.getD j default).current_hash) ∧
      (1 = [rogueRow].length ∧ ∀ i, i + 1 < [rogueRow].length →
        ([rogueRow].getD (i + 1) default).previous_hash =
          ([rogueRow].getD i default).current_hash)) := by
  constructor
  · simp
  constructor
  · exact (verify_chain_characterization brokenPair).2.2.2 2 "aa" "bb"
      (by decide)
  · exact (verify_chain_characterization [rogueRow]).2.1 1 (by decide)

/-!
## C4: there is no deep-verify mode

`verify_chain` is the program's only verification; its result depends
only on the stored `id`, `previous_hash` and `current_hash` columns, so
edits to the stored payload columns are invisible to it.
-/

theorem verifyLoop_payload_irrelevant (l : List Row) :
    ∀ (l' : List Row) (p p' : Row), p.current_hash = p'.current_hash →
    l.map (fun r => (r.id, r.previous_hash, r.current_hash)) =
      l'.map (fun r => (r.id, r.previous_hash, r.current_hash)) →
    verifyLoop p l = verifyLoop p' l' := by
  induction l with
  | nil =>
      intro l' p p' _ hmap
      have : l' = [] := by simpa using hmap.symm
      rw [this]
      rfl
  | cons c rest ih =>
      intro l' p p' hp hmap
      cases l' with
      | nil => exact absurd hmap (by simp)
      | cons c' rest2 =>
          simp only [List.map_cons, List.cons.injEq, Prod.mk.injEq] at hmap
          obtain ⟨⟨hid, hprev, hcurr⟩, hrest⟩ := hmap
          unfold verifyLoop
          rw [hprev, hp, hid]
          by_cases heq : c'.previous_hash = p'.current_hash
          · rw [if_pos heq, if_pos heq]
            exact ih rest2 c c' hcurr hrest
          · rw [if_neg heq, if_neg heq]

/-- C4 amended — no deep-verify mode exists: `verify_chain`, the only
verification the program has, is a function of the stored `id`,
`previous_hash` and `current_hash` columns alone, so two stores that
agree on those (for example, one obtained from the other by editing
payload columns in place) verify identically, and a payload edit whose
digest no longer matches the stored `current_hash` is never reported. -/
theorem verify_depends_only_on_link_columns (l l' : List Row)
    (h : l.map (fun r => (r.id, r.previous_hash, r.current_hash)) =
         l'.map (fun r => (r.id, r.previous_hash, r.current_hash))) :
    verify_chain l = verify_chain l' := by
  cases l with
  | nil =>
      have : l' = [] := by simpa using h.symm
      rw [this]
  | cons b rest =>
      cases l' with
      | nil => exact absurd h (by simp)
      | cons b' rest2 =>
          simp only [List.map_cons, List.cons.injEq, Prod.mk.injEq] at h
          obtain ⟨⟨_, _, hcurr⟩, hrest⟩ := h
          have hlen : rest.length = rest2.length := by
            have := congrArg List.length hrest
            simpa using this
          have hloops := verifyLoop_payload_irrelevant rest rest2 b b' hcurr
            hrest
          cases hvl : verifyLoop b' rest2 with
          | none =>
              rw [hvl] at hloops
              simp [verify_chain, hvl, hloops, hlen]
          | some v =>
              obtain ⟨bid, e, a⟩ := v
              rw [hvl] at hloops
              simp [verify_chain, hvl, hloops]

/-- Direct in-place edit of a stored row's payload column. -/
def tamperData (r : Row) : Row := { r with data := jdumps (.str "TAMPERED") }

/-- C4 counterexample — append one genuine block, then edit its stored
`data` column directly (bypassing the append path).  The stored
`current_hash` no longer matches the digest recomputed from the stored
payload, yet `verify_chain` — the program's only verification — reports
`VALID_CHAIN`; nothing like `PayloadTampered` exists or is reported. -/
theorem no_deep_verify_mode_cex :
    verify_chain ((run [w1]).store.map tamperData) = .validChain 1 ∧
    (((run [w1]).store.map tamperData).getD 0 default).data ≠
      ((run [w1]).store.getD 0 default).data ∧
    (((run [w1]).store.map tamperData).getD 0 default).current_hash ≠
      computeHash genesisHash { w1 with data := .str "TAMPERED" } := by
  decide

theorem verify_depends_only_on_link_columns_witness :
    ((run [w1]).store.map tamperData).map
        (fun r => (r.id, r.previous_hash, r.current_hash)) =
      (run [w1]).store.map
        (fun r => (r.id, r.previous_hash, r.current_hash)) ∧
    verify_chain ((run [w1]).store.map tamperData) =
      verify_chain (run [w1]).store :=
⟨by decide, verify_depends_only_on_link_columns _ _ (by decide)⟩

/-!
## C8: unserialized concurrent appends fork the chain

`create_block` is, definitionally, the tail read `cachedPrev` followed by
the write `create_block_write` — nothing in the source serializes the two.
A second caller that performs its read before the first caller's write
completes runs `create_block_write` with the stale tail.  The interleaving
read₁, read₂, write₁, write₂ below is therefore an execution the code
admits; both appends succeed, yet both blocks carry the genesis sentinel
as `previous_hash` and `verify_chain` rejects the result.
-/

/-- C8 fails on the code — two concurrent appends whose tail reads both
happen before either write (allowed, since `create_block` takes no lock
between line 45 and the INSERT) both succeed and produce two blocks with
ids 1 and 2 but the same `previous_hash` (a fork), and the resulting
two-block store fails `verify_chain` with `INVALID_CHAIN` at block 2.
The claim that every interleaving yields a chain passing `verify()` is
false of the code; the spec (§5, §9) itself calls this the defect to fix. -/
theorem concurrent_appends_fork :
    isOk (create_block_write initLogger (cachedPrev initLogger) w1).1 =
      true ∧
    isOk (create_block_write
      (create_block_write initLogger (cachedPrev initLogger) w1).2
      (cachedPrev initLogger) w2).1 = true ∧
    ((create_block_write
      (create_block_write initLogger (cachedPrev initLogger) w1).2
      (cachedPrev initLogger) w2).2.store.map
        (fun r => (r.id, r.previous_hash)) =
      [(1, genesisHash), (2, genesisHash)]) ∧
    verify_chain (create_block_write
      (create_block_write initLogger (cachedPrev initLogger) w1).2
      (cachedPrev initLogger) w2).2.store =
      .invalidChain 2 (computeHash genesisHash w1) genesisHash := by
  decide

/-!
## C6: the digest is deterministic, order-independent and fixed-width

Order-independence holds because `sort_keys=True` canonicalises every
object to ascending key order before rendering; fixed width because the
compression pipeline always carries eight 32-bit words and the final
digest spells each as four bytes, each byte as two hex characters.
-/

theorem toBytesBE_length (k : Nat) : ∀ x : Nat, (toBytesBE k x).length = k := by
  induction k with
  | zero => intro x; rfl
  | succ n ih => intro x; simp [toBytesBE, ih]

theorem sha256Round_length (st : List Nat) (kw : Nat) :
    (sha256Round st kw).length = st.length := by
  unfold sha256Round
  split <;> simp

theorem foldl_sha256Round_length (l : List Nat) :
    ∀ st : List Nat, (l.foldl sha256Round st).length = st.length := by
  induction l with
  | nil => intro st; rfl
  | cons a t ih => intro st; rw [List.foldl_cons, ih, sha256Round_length]

theorem processBlock_length (h block : List Nat) :
    (processBlock h block).length = h.length := by
  unfold processBlock
  rw [List.length_zipWith, foldl_sha256Round_length]
  omega

theorem foldl_processBlock_length (blocks : List (List Nat)) :
    ∀ h : List Nat, (blocks.foldl processBlock h).length = h.length := by
  induction blocks with
  | nil => intro h; rfl
  | cons b t ih => intro h; rw [List.foldl_cons, ih, processBlock_length]

theorem flatMap_toBytesBE4_length (l : List Nat) :
    (l.flatMap (toBytesBE 4)).length = 4 * l.length := by
  induction l with
  | nil => rfl
  | cons a t ih =>
      simp only [List.flatMap_cons, List.length_append, ih, toBytesBE_length,
        List.length_cons]
      omega

theorem sha256_length (msg : List Nat) : (sha256 msg).length = 32 := by
  unfold sha256
  rw [flatMap_toBytesBE4_length, foldl_processBlock_length]
  rfl

theorem flatMap_byteToHex_length (l : List Nat) :
    (l.flatMap byteToHex).length = 2 * l.length := by
  induction l with
  | nil => rfl
  | cons a t ih =>
      rw [List.flatMap_cons, List.length_append, ih, List.length_cons]
      show 2 + 2 * t.length = 2 * (t.length + 1)
      omega

theorem sha256hex_length (msg : List Nat) : (sha256hex msg).length = 64 := by
  show ((sha256 msg).flatMap byteToHex).length = 64
  rw [flatMap_byteToHex_length, sha256_length]

theorem keyLe_total : ∀ a b : List Char, keyLe a b = true ∨ keyLe b a = true := by
  intro a
  induction a with
  | nil => intro b; exact .inl rfl
  | cons x xs ih =>
      intro b
      cases b with
      | nil => exact .inr rfl
      | cons y ys =>
          simp only [keyLe]
          by_cases h1 : x.toNat < y.toNat
          · exact .inl (by rw [if_pos h1])
          · by_cases h2 : y.toNat < x.toNat
            · exact .inr (by rw [if_pos h2])
            · rcases ih ys with h | h
              · exact .inl (by rw [if_neg h1, if_neg h2]; exact h)
              · exact .inr (by rw [if_neg h2, if_neg h1]; exact h)

theorem keyLe_trans : ∀ a b c : List Char,
    keyLe a b = true → keyLe b c = true → keyLe a c = true := by
  intro a
  induction a with
  | nil => intro b c _ _; rfl
  | cons x xs ih =>
      intro b c hab hbc
      cases b with
      | nil => simp [keyLe] at hab
      | cons y ys =>
          cases c with
          | nil => simp [keyLe] at hbc
          | cons z zs =>
              simp only [keyLe] at hab hbc ⊢
              by_cases h1 : x.toNat < y.toNat
              · by_cases h2 : y.toNat < z.toNat
                · rw [if_pos (Nat.lt_trans h1 h2)]
                · by_cases h4 : z.toNat < y.toNat
                  · rw [if_neg h2, if_pos h4] at hbc
                    exact absurd hbc (by simp)
                  · rw [if_pos (show x.toNat < z.toNat by omega)]
              · by_cases h5 : y.toNat < x.toNat
                · rw [if_neg h1, if_pos h5] at hab
                  exact absurd hab (by simp)
                · by_cases h2 : y.toNat < z.toNat
                  · rw [if_pos (show x.toNat < z.toNat by omega)]
                  · by_cases h4 : z.toNat < y.toNat
                    · rw [if_neg h2, if_pos h4] at hbc
                      exact absurd hbc (by simp)
                    · rw [if_neg h1, if_neg h5] at hab
                      rw [if_neg h2, if_neg h4] at hbc
                      rw [if_neg (show ¬ x.toNat < z.toNat by omega),
                        if_neg (show ¬ z.toNat < x.toNat by omega)]
                      exact ih ys zs hab hbc

theorem keyLe_antisymm : ∀ a b : List Char,
    keyLe a b = true → keyLe b a = true → a = b := by
  intro a
  induction a with
  | nil =>
      intro b _ hba
      cases b with
      | nil => rfl
      | cons y ys => simp [keyLe] at hba
  | cons x xs ih =>
      intro b hab hba
      cases b with
      | nil => simp [keyLe] at hab
      | cons y ys =>
          simp only [keyLe] at hab hba
          by_cases h1 : x.toNat < y.toNat
          · rw [if_neg (show ¬ y.toNat < x.toNat by omega), if_pos h1] at hba
            exact absurd hba (by simp)
          · by_cases h2 : y.toNat < x.toNat
            · rw [if_neg h1, if_pos h2] at hab
              exact absurd hab (by simp)
            · rw [if_neg h1, if_neg h2] at hab
              rw [if_neg h2, if_neg h1] at hba
              have hxy : x.toNat = y.toNat := by omega
              have hx : x = y := Char.ext (UInt32.ext hxy)
              rw [hx, ih ys hab hba]

/-- The key order on object fields, as a relation. -/
def leKey (p q : String × JValue) : Prop := keyLe p.1.data q.1.data = true

/-- Ordered insertion at the list level, mirroring `insertField`. -/
def insertPairL (p : String × JValue) :
    List (String × JValue) → List (String × JValue)
| [] => [p]
| q :: tl =>
    if keyLe p.1.data q.1.data then p :: q :: tl else q :: insertPairL p tl

/-- Insertion sort at the list level, mirroring `isortFields`. -/
def sortPairsL : List (String × JValue) → List (String × JValue)
| [] => []
| p :: tl => insertPairL p (sortPairsL tl)

theorem mem_insertPairL (p q : String × JValue) :
    ∀ l : List (String × JValue), q ∈ insertPairL p l ↔ q = p ∨ q ∈ l := by
  intro l
  induction l with
  | nil => simp [insertPairL]
  | cons r t ih =>
      by_cases h : keyLe p.1.data r.1.data
      · simp [insertPairL, h]
      · simp only [insertPairL, if_neg h, List.mem_cons, ih]
        tauto

theorem perm_insertPairL (p : String × JValue) :
    ∀ l : List (String × JValue), (insertPairL p l).Perm (p :: l) := by
  intro l
  induction l with
  | nil => exact List.Perm.refl _
  | cons r t ih =>
      by_cases h : keyLe p.1.data r.1.data
      · rw [insertPairL, if_pos h]
      · rw [insertPairL, if_neg h]
        exact (ih.cons r).trans (List.Perm.swap p r t)

theorem perm_sortPairsL :
    ∀ l : List (String × JValue), (sortPairsL l).Perm l := by
  intro l
  induction l with
  | nil => exact List.Perm.refl _
  | cons p t ih =>
      exact ((perm_insertPairL p (sortPairsL t)).trans (ih.cons p))

theorem sorted_insertPairL (p : String × JValue) :
    ∀ l : List (String × JValue), List.Pairwise leKey l →
      List.Pairwise leKey (insertPairL p l) := by
  intro l
  induction l with
  | nil => intro _; simp [insertPairL, List.pairwise_singleton]
  | cons r t ih =>
      intro hs
      rw [List.pairwise_cons] at hs
      by_cases h : keyLe p.1.data r.1.data
      · rw [insertPairL, if_pos h, List.pairwise_cons]
        refine ⟨?_, by rw [List.pairwise_cons]; exact hs⟩
        intro q hq
        rcases List.mem_cons.mp hq with hq | hq
        · rw [hq]; exact h
        · exact keyLe_trans _ _ _ h (hs.1 q hq)
      · rw [insertPairL, if_neg h, List.pairwise_cons]
        refine ⟨?_, ih hs.2⟩
        intro q hq
        rcases (mem_insertPairL p q t).mp hq with hq | hq
        · rw [hq]
          rcases keyLe_total p.1.data r.1.data with htot | htot
          · exact absurd htot h
          · exact htot
        · exact hs.1 q hq

theorem sorted_sortPairsL :
    ∀ l : List (String × JValue), List.Pairwise leKey (sortPairsL l) := by
  intro l
  induction l with
  | nil => exact List.Pairwise.nil
  | cons p t ih => exact sorted_insertPairL p (sortPairsL t) ih

theorem string_data_eq {s t : String} (h : s.data = t.data) : s = t := by
  cases s
  cases t
  exact congrArg String.mk h

theorem sorted_perm_nodupkeys_eq (l₁ l₂ : List (String × JValue))
    (hp : l₁.Perm l₂) (h1 : List.Pairwise leKey l₁)
    (h2 : List.Pairwise leKey l₂) (hnd : (l₁.map Prod.fst).Nodup) :
    l₁ = l₂ := by
  have hnd1 : List.Pairwise (fun a b : String × JValue => a.1 ≠ b.1) l₁ := by
    rw [List.Nodup, List.pairwise_map] at hnd
    exact hnd
  have hndB : (l₂.map Prod.fst).Nodup := ((hp.map Prod.fst).nodup_iff).mp hnd
  have hnd2 : List.Pairwise (fun a b : String × JValue => a.1 ≠ b.1) l₂ := by
    rw [List.Nodup, List.pairwise_map] at hndB
    exact hndB
  haveI : IsAntisymm (String × JValue)
      (fun a b => leKey a b ∧ a.1 ≠ b.1) := by
    constructor
    intro a b hab hba
    exact absurd (string_data_eq (keyLe_antisymm _ _ hab.1 hba.1)) hab.2
  exact List.eq_of_perm_of_sorted hp (h1.and hnd1) (h2.and hnd2)

theorem toList_ofList :
    ∀ l : List (String × JValue), (JFields.ofList l).toList = l := by
  intro l
  induction l with
  | nil => rfl
  | cons p tl ih =>
      obtain ⟨k, v⟩ := p
      simp [JFields.ofList, JFields.toList, ih]

theorem ofList_toList : ∀ f : JFields, JFields.ofList f.toList = f
| .nil => rfl
| .cons k v tl => by
    show JFields.ofList ((k, v) :: tl.toList) = JFields.cons k v tl
    rw [JFields.ofList, ofList_toList tl]

theorem toList_insertField (k : String) (v : JValue) :
    ∀ f : JFields, (insertField k v f).toList = insertPairL (k, v) f.toList
| .nil => rfl
| .cons k2 v2 tl => by
    by_cases h : keyLe k.data k2.data
    · rw [insertField, if_pos h]
      show (k, v) :: (k2, v2) :: tl.toList =
        insertPairL (k, v) ((k2, v2) :: tl.toList)
      rw [insertPairL, if_pos h]
    · rw [insertField, if_neg h]
      show (k2, v2) :: (insertField k v tl).toList =
        insertPairL (k, v) ((k2, v2) :: tl.toList)
      rw [insertPairL, if_neg h, toList_insertField k v tl]

theorem toList_isortFields :
    ∀ f : JFields, (isortFields f).toList = sortPairsL f.toList
| .nil => rfl
| .cons k v tl => by
    show (insertField k v (isortFields tl)).toList =
      sortPairsL ((k, v) :: tl.toList)
    rw [toList_insertField, toList_isortFields tl]
    rfl

theorem toList_sortFieldVals_ofList :
    ∀ l : List (String × JValue),
      (sortFieldVals (JFields.ofList l)).toList =
        l.map (fun p => (p.1, sortJson p.2)) := by
  intro l
  induction l with
  | nil => rfl
  | cons p tl ih =>
      obtain ⟨k, v⟩ := p
      show (k, sortJson v) :: (sortFieldVals (JFields.ofList tl)).toList = _
      rw [ih]
      rfl

/-- C6 — the digest is deterministic and construction-order independent:
two field lists that are permutations of each other (same logical record,
distinct keys as in a Python dict) hash to the identical digest, because
`sort_keys=True` serializes fields in ascending key order; and the digest
is always exactly 32 bytes, printed as 64 hex characters. -/
theorem digest_deterministic_orderfree :
    (∀ l₁ l₂ : List (String × JValue), (l₁.map Prod.fst).Nodup →
      l₁.Perm l₂ →
      sha256hex (strBytes (jdumpsSorted (.obj (JFields.ofList l₁)))) =
        sha256hex (strBytes (jdumpsSorted (.obj (JFields.ofList l₂))))) ∧
    (∀ msg : List Nat, (sha256 msg).length = 32 ∧
      (sha256hex msg).length = 64) := by
  constructor
  · intro l₁ l₂ hnd hperm
    have key : isortFields (sortFieldVals (JFields.ofList l₁)) =
        isortFields (sortFieldVals (JFields.ofList l₂)) := by
      have htl : (isortFields (sortFieldVals (JFields.ofList l₁))).toList =
          (isortFields (sortFieldVals (JFields.ofList l₂))).toList := by
        rw [toList_isortFields, toList_isortFields,
          toList_sortFieldVals_ofList, toList_sortFieldVals_ofList]
        have hperm2 : (l₁.map (fun p => (p.1, sortJson p.2))).Perm
            (l₂.map (fun p => (p.1, sortJson p.2))) :=
          hperm.map _
        have hnd2 : ((l₁.map (fun p => (p.1, sortJson p.2))).map
            Prod.fst).Nodup := by
          rw [List.map_map]
          exact hnd
        refine sorted_perm_nodupkeys_eq _ _
          (((perm_sortPairsL _).trans hperm2).trans
            (perm_sortPairsL _).symm)
          (sorted_sortPairsL _) (sorted_sortPairsL _) ?_
        exact (((perm_sortPairsL _).map Prod.fst).nodup_iff).mpr hnd2
      calc isortFields (sortFieldVals (JFields.ofList l₁))
          = JFields.ofList
              (isortFields (sortFieldVals (JFields.ofList l₁))).toList :=
            (ofList_toList _).symm
        _ = JFields.ofList
              (isortFields (sortFieldVals (JFields.ofList l₂))).toList := by
            rw [htl]
        _ = isortFields (sortFieldVals (JFields.ofList l₂)) :=
            ofList_toList _
    have hsort : sortJson (.obj (JFields.ofList l₁)) =
        sortJson (.obj (JFields.ofList l₂)) := by
      show JValue.obj (isortFields (sortFieldVals (JFields.ofList l₁))) =
        JValue.obj (isortFields (sortFieldVals (JFields.ofList l₂)))
      rw [key]
    unfold jdumpsSorted
    rw [hsort]
  · intro msg
    exact ⟨sha256_length msg, sha256hex_length msg⟩

theorem digest_deterministic_orderfree_witness :
    (([("b", JValue.num 1), ("a", JValue.null)].map Prod.fst).Nodup ∧
      sha256hex (strBytes (jdumpsSorted (.obj (JFields.ofList
        [("b", JValue.num 1), ("a", JValue.null)])))) =
        sha256hex (strBytes (jdumpsSorted (.obj (JFields.ofList
          [("a", JValue.null), ("b", JValue.num 1)]))))) ∧
    (sha256 []).length = 32 ∧ (sha256hex []).length = 64 :=
⟨⟨by decide, digest_deterministic_orderfree.1
    [("b", JValue.num 1), ("a", JValue.null)]
    [("a", JValue.null), ("b", JValue.num 1)]
    (by decide) (List.Perm.swap _ _ _)⟩,
 digest_deterministic_orderfree.2 []⟩

end Guardian
